import Mathlib

/-!
Verification of `split_csv.py`, a streaming Excel-style CSV splitter.

The script reads an input byte stream in fixed-size chunks, runs a
quote-aware state machine over every byte to recognize record-terminating
line feeds, rotates output files every `num_per_split` records, and
optionally writes a sparse `(record_num, byte_offset)` index at each
rotation.

The embedding below models bytes as `Nat`, the scanner's state stack
(the Python list `state = ["start"]`) as a `List SState`, and the
fallible stack accesses (`state[-1]`, `state.pop()`) through `Option`:
a read or pop of an empty stack yields `none`.  Python strings (file
paths) are modelled as `List Char`.
-/

/-- The labels pushed on the scanner's state stack in `run_as_script`
(the Python strings `"start"`, `"inquote"`, `"endquote"`,
`"literal_quote"`). -/
inductive SState where
  | start
  | inquote
  | endquote
  | literal_quote
deriving DecidableEq, Repr

/-- The scanner's state stack.  The Python code keeps it as a list used
as a stack, with the top at the end; we keep the top at the head. -/
abbrev Stack := List SState

/-- Byte value of the double-quote character `"`. -/
def qm : Nat := 34

/-- Byte value of the line-feed character. -/
def lfByte : Nat := 10

/-- One byte of the scanner loop body (`run_as_script`, the two
`if`/`elif` chains inside `for (index, char) in enumerate(inbuf)`).
Returns the new stack and whether this byte terminated a record
(the `char==10` branch at `Start`).  `none` models an out-of-bounds
`state[-1]` or `state.pop()` on an empty stack. -/
def scanStep (st : Stack) (c : Nat) : Option (Stack × Bool) := do
  let t ← st.head?
  let st1 ←
    if t = SState.endquote ∧ c = qm then
      -- state.pop(); state.append("literal_quote")
      some (SState.literal_quote :: st.tail)
    else if t = SState.endquote then
      -- state.pop() -- endquote ; state.pop() -- inquote
      st.tail.tail?
    else
      some st
  let t1 ← st1.head?
  if t1 = SState.literal_quote then
    some (st1.tail, false)
  else if t1 = SState.inquote ∧ c = qm then
    some (SState.endquote :: st1, false)
  else if t1 = SState.inquote then
    some (st1, false)
  else if c = qm then
    some (SState.inquote :: st1, false)
  else if c = lfByte then
    some (st1, true)
  else
    some (st1, false)

/-- Run the scanner over a byte list, returning the final stack and the
number of record terminators recognized. -/
def scanRecords (st : Stack) : List Nat → Option (Stack × Nat)
  | [] => some (st, 0)
  | c :: cs => do
      let (st1, b) ← scanStep st c
      let (st2, k) ← scanRecords st1 cs
      some (st2, (if b then 1 else 0) + k)

/-- The scanner's final stack over a byte list. -/
def scanStates (st : Stack) (l : List Nat) : Option Stack :=
  (scanRecords st l).map Prod.fst

/-- The stacks reachable from the initial stack `["start"]`. -/
def goodStack (st : Stack) : Prop :=
  st = [SState.start] ∨ st = [SState.inquote, SState.start] ∨
    st = [SState.endquote, SState.inquote, SState.start]

instance : DecidablePred goodStack := fun st => by
  unfold goodStack; infer_instance

/-- Resolution of a pending `endquote` by a non-quote byte: the two pops
of the first `elif` chain.  This is the scanner's "resolved" state
against which a line feed is judged. -/
def resolveStep (st : Stack) : Stack :=
  if st.head? = some SState.endquote then st.tail.tail else st

/-- State of the splitting loop in `run_as_script`: the scanner stack,
`record_num`, the output buffer `outbuf`, the bytes already written to
the currently open output file, the closed output files in order,
`output_filenum`, and the index entries written so far.  The index
entries are collected unconditionally; they model the lines the script
writes when `--generate-index` is given.  Offsets are `Int` because the
script computes `infh.tell()-read_size+index+1`, which Python evaluates
as a possibly negative integer. -/
structure Driver where
  st : Stack
  recordNum : Nat
  outbuf : List Nat
  curFile : List Nat
  closed : List (List Nat)
  fileNum : Nat
  index : List (Nat × Int)
deriving DecidableEq, Repr

/-- `record_num = 0`, `output_filenum = 1`, empty buffers, initial stack. -/
def initDriver : Driver :=
  ⟨[SState.start], 0, [], [], [], 1, []⟩

/-- One iteration of `for (index, char) in enumerate(inbuf)`:
append the byte to `outbuf`, step the scanner, and on a record
terminator with `record_num % num_per_split == 0` write the index
entry, flush `outbuf` to the open file, close it and open the next
one.  `tell` is `infh.tell()` during this chunk, `idx` the position of
the byte within the chunk. -/
def procByte (n readSize tell idx : Nat) (d : Driver) (c : Nat) :
    Option Driver := do
  let (st', isEnd) ← scanStep d.st c
  let ob := d.outbuf ++ [c]
  if isEnd then
    let r := d.recordNum + 1
    if r % n = 0 then
      some { st := st', recordNum := r, outbuf := [], curFile := [],
             closed := d.closed ++ [d.curFile ++ ob],
             fileNum := d.fileNum + 1,
             index := d.index ++
               [(r, (tell : Int) - (readSize : Int) + (idx : Int) + 1)] }
    else
      some { d with st := st', recordNum := r, outbuf := ob }
  else
    some { d with st := st', outbuf := ob }

/-- Process the bytes of one chunk, `idx` counting from the enumeration
start. -/
def procBytes (n readSize tell : Nat) (idx : Nat) (d : Driver) :
    List Nat → Option Driver
  | [] => some d
  | c :: cs => do
      let d' ← procByte n readSize tell idx d c
      procBytes n readSize tell (idx + 1) d' cs

/-- End of one `while inbuf` iteration:
`outfh.write(outbuf); outbuf = bytearray()`. -/
def endChunk (d : Driver) : Driver :=
  { d with curFile := d.curFile ++ d.outbuf, outbuf := [] }

/-- The `while inbuf` loop over the remaining chunks; `tell` is the
number of input bytes read before these chunks. -/
def procChunks (n readSize : Nat) : Nat → Driver → List (List Nat) → Option Driver
  | _, d, [] => some d
  | tell, d, ch :: chs => do
      let d' ← procBytes n readSize (tell + ch.length) 0 d ch
      procChunks n readSize (tell + ch.length) (endChunk d') chs

/-- Split the input into the chunks returned by successive
`infh.read(read_size)` calls: all of length `readSize` except a
possibly shorter final one.  Structural recursion on a fuel bounded by
the input length. -/
def chunksOfAux (readSize : Nat) : Nat → List Nat → List (List Nat)
  | 0, _ => []
  | _, [] => []
  | fuel + 1, l => l.take readSize :: chunksOfAux readSize fuel (l.drop readSize)

/-- The chunk decomposition of the whole input. -/
def chunksOf (readSize : Nat) (l : List Nat) : List (List Nat) :=
  chunksOfAux readSize l.length l

/-- Observable outcome of `run_as_script`: the record count and file
count of the final summary line, the bytes of every output file in
creation order (the currently-open final file included), and the index
entries. -/
structure RunResult where
  recordNum : Nat
  outputFilenum : Nat
  files : List (List Nat)
  index : List (Nat × Int)
deriving DecidableEq, Repr

/-- The whole splitting pass of `run_as_script` on an input byte
stream: chunked reading, the scanner loop, the leftover-record check
`if outbuf and outbuf[-1] != 10`, and the final `outfh.write(outbuf)`.
No output file exists when the input is empty (the first `read`
returns nothing and no file is ever opened). -/
def run (n readSize : Nat) (input : List Nat) : Option RunResult := do
  let d ← procChunks n readSize 0 initDriver (chunksOf readSize input)
  let d := if d.outbuf ≠ [] ∧ d.outbuf.getLast? ≠ some lfByte then
      { d with recordNum := d.recordNum + 1 } else d
  some { recordNum := d.recordNum, outputFilenum := d.fileNum,
         files := if input = [] then [] else d.closed ++ [d.curFile ++ d.outbuf],
         index := d.index }

/-- One complete record: nonempty, its last byte is the terminating
line feed, and the scanner takes it from `Start` back to `Start`
recognizing exactly one terminator. -/
def IsRecord (r : List Nat) : Prop :=
  r ≠ [] ∧ r.getLast? = some lfByte ∧
    scanRecords [SState.start] r = some ([SState.start], 1)

/-- A byte list that is a concatenation of complete records. -/
def WholeRecords (f : List Nat) : Prop :=
  ∃ recs : List (List Nat), f = recs.flatten ∧ ∀ r ∈ recs, IsRecord r

/-- Record terminators recognized when scanning a file from `Start`. -/
def numRecords (f : List Nat) : Option Nat :=
  (scanRecords [SState.start] f).map Prod.snd

/-- Invariant of the splitting loop after the driver has consumed
`processed` bytes of the input (for `num_per_split = n`). -/
structure LoopInv (n : Nat) (processed : List Nat) (d : Driver) : Prop where
  hscan : scanRecords [SState.start] processed = some (d.st, d.recordNum)
  hgood : goodStack d.st
  hjoin : d.closed.join ++ (d.curFile ++ d.outbuf) = processed
  hfiles : ∀ f ∈ d.closed, ∃ recs : List (List Nat),
    f = recs.flatten ∧ (∀ r ∈ recs, IsRecord r) ∧ recs.length = n
  hcur : ∃ recs tl, d.curFile ++ d.outbuf = List.flatten recs ++ tl ∧
    (∀ r ∈ recs, IsRecord r) ∧ recs.length = d.recordNum % n ∧
    scanRecords [SState.start] tl = some (d.st, 0)
  hnum : d.recordNum = n * d.closed.length + d.recordNum % n
  hfile : d.fileNum = d.closed.length + 1

/-- Python strings (file paths) modelled as lists of characters. -/
abbrev PathC := List Char

/-- Index from the start of the last occurrence of `c` in `p`, as in
Python's `str.rfind` (`none` when absent). -/
def rlast (c : Char) (p : PathC) : Option Nat :=
  match (p.reverse).findIdx? (fun x => x = c) with
  | some i => some (p.length - 1 - i)
  | none => none

/-- `os.path.splitext`: split off the extension at the last dot that
lies after the last separator and is not part of the basename's
leading run of dots. -/
def splitext (p : PathC) : PathC × PathC :=
  match rlast '.' p with
  | none => (p, [])
  | some di =>
      let nameStart : Nat :=
        match rlast '/' p with
        | none => 0
        | some si => si + 1
      if nameStart ≤ di then
        if ((p.drop nameStart).take (di - nameStart)).any
            (fun ch => ch ≠ '.') then
          (p.take di, p.drop di)
        else (p, [])
      else (p, [])

/-- The tail component of `os.path.split`: everything after the last
separator. -/
def basename (p : PathC) : PathC :=
  match rlast '/' p with
  | none => p
  | some si => p.drop (si + 1)

/-- `os.path.join` for one component (POSIX rules). -/
def pathJoin (a b : PathC) : PathC :=
  if b.head? = some '/' then b
  else if a = [] ∨ a.getLast? = some '/' then a ++ b
  else a ++ '/' :: b

/-- The decimal digit character for `d`. -/
def digitChar (d : Nat) : Char := Char.ofNat (48 + d)

/-- Little-endian base-10 digits, by structural recursion on a fuel
bound (`decDigits_eq` identifies it with `Nat.digits 10`). -/
def decDigitsAux : Nat → Nat → List Nat
  | 0, _ => []
  | _, 0 => []
  | fuel + 1, n + 1 => (n + 1) % 10 :: decDigitsAux fuel ((n + 1) / 10)

/-- Python's decimal rendering `"{}".format(n)`. -/
def decRepr (n : Nat) : PathC :=
  if n = 0 then ['0']
  else ((decDigitsAux n n).map digitChar).reverse

/-- `"{:0w}"` formatting: left-pad with `'0'` to width `w`. -/
def padZeros (w : Nat) (s : PathC) : PathC :=
  List.replicate (w - s.length) '0' ++ s

/-- `initial_output_path` in `next_outfile`: insert `_{counter:06}`
before the extension, next to the input or inside the output
directory. -/
def initialOutputPath (inputPath : PathC) (outputDir : Option PathC)
    (counter : Nat) : PathC :=
  match outputDir with
  | some od =>
      let pe := splitext (basename inputPath)
      pathJoin od (pe.1 ++ '_' :: (padZeros 6 (decRepr counter) ++ pe.2))
  | none =>
      let pe := splitext inputPath
      pe.1 ++ '_' :: (padZeros 6 (decRepr counter) ++ pe.2)

/-- The `retry_count`-th candidate tried by `next_outfile`: the initial
path itself, then `"{}_{}{}".format(output_base, retry_count,
output_ext)` with the disambiguator inserted before the extension. -/
def candidatePath (initial : PathC) : Nat → PathC
  | 0 => initial
  | r + 1 =>
      (splitext initial).1 ++ '_' :: (decRepr (r + 1) ++ (splitext initial).2)

/-- The `while not outfh` loop of `next_outfile` over the set `fs` of
existing paths: try candidates in order; `open(path, 'xb')` succeeds
exactly when the path is not taken.  The Python loop is unbounded; the
fuel argument covers the finitely many existing files
(`next_outfile_total`). -/
def nextOutfileLoop (fs : List PathC) (initial : PathC) :
    Nat → Nat → Option PathC
  | 0, _ => none
  | fuel + 1, r =>
      if candidatePath initial r ∈ fs then
        nextOutfileLoop fs initial fuel (r + 1)
      else some (candidatePath initial r)

/-- `next_outfile`: build the initial candidate and retry with `_1`,
`_2`, … until an exclusive create succeeds; returns the path of the
newly created (empty) file. -/
def next_outfile (fs : List PathC) (inputPath : PathC)
    (outputDir : Option PathC) (counter : Nat) : Option PathC :=
  nextOutfileLoop fs (initialOutputPath inputPath outputDir counter)
    (fs.length + 1) 0

/-- The processing-and-allocation part of `run_as_script` after the
startup checks: run the splitting pass and create each output file
through `next_outfile` (counters `1, 2, …`), threading the filesystem.
`.error fs` models an exception escaping with the filesystem in state
`fs`. -/
def allocFiles (inputPath : PathC) (outputDir : Option PathC) :
    Nat → Nat → List PathC → Option (List PathC)
  | _, 0, fs => some fs
  | ctr, k + 1, fs => do
      let p ← next_outfile fs inputPath outputDir ctr
      allocFiles inputPath outputDir (ctr + 1) k (p :: fs)

/-- Splitting run with filesystem threading (no index handling). -/
def runWithFS (fs : List PathC) (inputPath : PathC)
    (outputDir : Option PathC) (n readSize : Nat) (input : List Nat) :
    Except (List PathC) (List PathC × RunResult) :=
  match run n readSize input with
  | none => .error fs
  | some r =>
      match allocFiles inputPath outputDir 1 r.outputFilenum fs with
      | none => .error fs
      | some fs2 => .ok (fs2, r)

/-- `run_as_script` against a filesystem `fs` (list of existing paths):
read the first chunk; when it is non-empty, first open the index file
exclusively (`open(args.generate_index, 'xb')` — raises when the path
already exists, before any output file is allocated or any byte is
written), then allocate output files and process the stream. -/
def runScript (fs : List PathC) (inputPath : PathC)
    (outputDir : Option PathC) (indexPath : Option PathC)
    (n readSize : Nat) (input : List Nat) :
    Except (List PathC) (List PathC × RunResult) :=
  if input = [] then .ok (fs, ⟨0, 1, [], []⟩)
  else
    match indexPath with
    | some ip =>
        if ip ∈ fs then .error fs
        else runWithFS (ip :: fs) inputPath outputDir n readSize input
    | none => runWithFS fs inputPath outputDir n readSize input

theorem scanStep_good {st : Stack} (h : goodStack st) (c : Nat) :
    ∃ st' b, scanStep st c = some (st', b) ∧ goodStack st' := by
  rcases h with h | h | h <;> subst h <;>
    by_cases hq : c = qm <;> by_cases hl : c = lfByte <;>
      simp [scanStep, goodStack, hq, hl, qm, lfByte] at * <;> simp_all

theorem scanRecords_append (st : Stack) (a b : List Nat) :
    scanRecords st (a ++ b) =
      (scanRecords st a).bind (fun p =>
        (scanRecords p.1 b).map (fun q => (q.1, p.2 + q.2))) := by
  induction a generalizing st with
  | nil =>
      simp only [List.nil_append, scanRecords, Option.some_bind]
      cases h : scanRecords st b with
      | none => rfl
      | some q =>
          obtain ⟨s2, k2⟩ := q
          simp
  | cons c cs ih =>
      simp only [List.cons_append, scanRecords, ih]
      cases h1 : scanStep st c with
      | none => simp
      | some p =>
          obtain ⟨st1, bb⟩ := p
          cases h2 : scanRecords st1 cs with
          | none => simp [ih, h2]
          | some q =>
              obtain ⟨st2, k1⟩ := q
              cases h3 : scanRecords st2 b with
              | none => simp [ih, h2, h3]
              | some r =>
                  obtain ⟨st3, k2⟩ := r
                  simp [ih, h2, h3, Nat.add_assoc]

theorem scanRecords_good {st : Stack} (h : goodStack st) (l : List Nat) :
    ∃ st' k, scanRecords st l = some (st', k) ∧ goodStack st' := by
  induction l generalizing st with
  | nil => exact ⟨st, 0, rfl, h⟩
  | cons c cs ih =>
      obtain ⟨st1, b, hs, hg1⟩ := scanStep_good h c
      obtain ⟨st2, k, hr, hg2⟩ := ih hg1
      exact ⟨st2, (if b then 1 else 0) + k, by simp [scanRecords, hs, hr], hg2⟩

theorem scanStep_lf {st : Stack} (h : goodStack st) :
    scanStep st lfByte =
      some (resolveStep st, decide (resolveStep st = [SState.start])) := by
  rcases h with h | h | h <;> subst h <;>
    simp [scanStep, resolveStep, qm, lfByte]

theorem scanStep_isEnd {st : Stack} {c : Nat} {st' : Stack} (h : goodStack st)
    (hs : scanStep st c = some (st', true)) :
    c = lfByte ∧ st' = [SState.start] ∧ resolveStep st = [SState.start] := by
  rcases h with h | h | h <;> subst h <;>
    by_cases hq : c = qm <;> by_cases hl : c = lfByte <;>
      simp [scanStep, resolveStep, hq, hl, qm, lfByte] at * <;> simp_all

theorem scanRecords_lf_start {st stf : Stack} {k : Nat} (h : goodStack st)
    (hs : scanRecords st [lfByte] = some (stf, k))
    (hf : stf = [SState.start]) : k = 1 := by
  rcases h with h | h | h <;> subst h <;>
    simp [scanRecords, scanStep, qm, lfByte] at hs <;> simp_all

theorem scanRecords_snoc (st : Stack) (l : List Nat) (c : Nat) :
    scanRecords st (l ++ [c]) =
      (scanRecords st l).bind (fun p =>
        (scanStep p.1 c).map (fun q =>
          (q.1, p.2 + (if q.2 then 1 else 0)))) := by
  rw [scanRecords_append]
  cases scanRecords st l with
  | none => rfl
  | some p =>
      obtain ⟨st1, k1⟩ := p
      simp only [Option.some_bind]
      cases h : scanStep st1 c with
      | none => simp [scanRecords, h]
      | some q =>
          obtain ⟨st2, b⟩ := q
          simp [scanRecords, h]

theorem mod_succ_shift {m n : Nat} :
    (m + 1) % n = (m % n + 1) % n := by
  conv_lhs => rw [← Nat.mod_add_div m n, Nat.add_right_comm,
    Nat.add_mul_mod_self_left]

theorem mod_succ_of_ne {m n : Nat} (hn : 0 < n) (h : (m + 1) % n ≠ 0) :
    (m + 1) % n = m % n + 1 := by
  have hx := mod_succ_shift (m := m) (n := n)
  have hlt : m % n < n := Nat.mod_lt _ hn
  rcases Nat.lt_or_ge (m % n + 1) n with h1 | h1
  · rw [hx, Nat.mod_eq_of_lt h1]
  · have h2 : m % n + 1 = n := by omega
    rw [hx, h2, Nat.mod_self] at h
    exact absurd rfl h

theorem mod_succ_of_eq {m n : Nat} (hn : 0 < n) (h : (m + 1) % n = 0) :
    m % n + 1 = n := by
  have hx := mod_succ_shift (m := m) (n := n)
  have hlt : m % n < n := Nat.mod_lt _ hn
  rcases Nat.lt_or_ge (m % n + 1) n with h1 | h1
  · rw [hx, Nat.mod_eq_of_lt h1] at h
    omega
  · omega

theorem scanRecords_join {recs : List (List Nat)}
    (h : ∀ r ∈ recs, IsRecord r) :
    scanRecords [SState.start] recs.flatten =
      some ([SState.start], recs.length) := by
  induction recs with
  | nil => rfl
  | cons r rs ih =>
      have hr := h r (by simp)
      obtain ⟨-, -, hscan⟩ := hr
      have hrest := ih (fun q hq => h q (by simp [hq]))
      rw [List.flatten_cons, scanRecords_append, hscan]
      simp [hrest, Nat.add_comm]

theorem procByte_inv {n readSize tell idx : Nat} {processed : List Nat}
    {d : Driver} (hn : 0 < n) (inv : LoopInv n processed d) (c : Nat) :
    ∃ d', procByte n readSize tell idx d c = some d' ∧
      LoopInv n (processed ++ [c]) d' := by
  obtain ⟨st', b, hstep, hgood'⟩ := scanStep_good inv.hgood c
  have hscan' : scanRecords [SState.start] (processed ++ [c]) =
      some (st', d.recordNum + (if b then 1 else 0)) := by
    rw [scanRecords_snoc, inv.hscan]
    simp [hstep]
  obtain ⟨recs, tl, hsplit, hrecs, hlen, htl⟩ := inv.hcur
  have htl' : scanRecords [SState.start] (tl ++ [c]) =
      some (st', (if b then 1 else 0)) := by
    rw [scanRecords_snoc, htl]
    simp [hstep]
  cases b with
  | false =>
      refine ⟨{ d with st := st', outbuf := d.outbuf ++ [c] }, ?_, ?_⟩
      · simp [procByte, hstep]
      refine ⟨by simpa using hscan', hgood', ?_, inv.hfiles, ?_,
        inv.hnum, inv.hfile⟩
      · rw [← inv.hjoin]
        simp [List.append_assoc]
      · refine ⟨recs, tl ++ [c], ?_, hrecs, hlen, by simpa using htl'⟩
        rw [← List.append_assoc, hsplit, List.append_assoc]
  | true =>
      obtain ⟨hc, hst', hres⟩ := scanStep_isEnd inv.hgood hstep
      have hnewrec : IsRecord (tl ++ [c]) := by
        refine ⟨by simp, ?_, ?_⟩
        · rw [List.getLast?_concat, hc]
        · rw [htl', hst']
          simp
      by_cases hmod : (d.recordNum + 1) % n = 0
      · -- split boundary: rotate to a new output file
        refine ⟨⟨st', d.recordNum + 1, [], [],
          d.closed ++ [d.curFile ++ (d.outbuf ++ [c])], d.fileNum + 1,
          d.index ++ [(d.recordNum + 1,
            (tell : Int) - (readSize : Int) + (idx : Int) + 1)]⟩, ?_, ?_⟩
        · simp [procByte, hstep, hmod]
        refine ⟨by simpa using hscan', hgood', ?_, ?_, ?_, ?_, ?_⟩
        · rw [← inv.hjoin]
          simp [List.append_assoc]
        · intro f hf
          rcases List.mem_append.mp hf with hf | hf
          · exact inv.hfiles f hf
          · have hfeq : f = d.curFile ++ (d.outbuf ++ [c]) := by
              simpa using hf
            refine ⟨recs ++ [tl ++ [c]], ?_, ?_, ?_⟩
            · rw [hfeq, List.flatten_append, ← List.append_assoc, hsplit]
              simp
            · intro r hr
              rcases List.mem_append.mp hr with hr | hr
              · exact hrecs r hr
              · rw [List.mem_singleton.mp hr]
                exact hnewrec
            · simp only [List.length_append, List.length_cons,
                List.length_nil, hlen]
              exact mod_succ_of_eq hn hmod
        · refine ⟨[], [], ?_, ?_, ?_, ?_⟩
          · simp
          · simp
          · simp [hmod]
          · rw [hst']
            rfl
        · simp only [List.length_append, List.length_cons, List.length_nil,
            hmod, Nat.add_zero]
          rw [inv.hnum, Nat.add_assoc, mod_succ_of_eq hn hmod,
            Nat.mul_succ]
        · simp [inv.hfile]
      · -- record end without rotation
        refine ⟨⟨st', d.recordNum + 1, d.outbuf ++ [c], d.curFile,
          d.closed, d.fileNum, d.index⟩, ?_, ?_⟩
        · simp [procByte, hstep, hmod]
        refine ⟨by simpa using hscan', hgood', ?_, inv.hfiles, ?_, ?_,
          inv.hfile⟩
        · rw [← inv.hjoin]
          simp [List.append_assoc]
        · refine ⟨recs ++ [tl ++ [c]], [], ?_, ?_, ?_, ?_⟩
          · rw [List.flatten_append, ← List.append_assoc, hsplit]
            simp
          · intro r hr
            rcases List.mem_append.mp hr with hr | hr
            · exact hrecs r hr
            · rw [List.mem_singleton.mp hr]
              exact hnewrec
          · simp only [List.length_append, List.length_cons,
              List.length_nil, hlen]
            exact (mod_succ_of_ne hn hmod).symm
          · rw [hst']
            rfl
        · have h2 := mod_succ_of_ne hn hmod
          simp only [h2]
          conv_lhs => rw [inv.hnum]
          rw [Nat.add_assoc]

theorem procBytes_inv {n readSize tell : Nat} (hn : 0 < n) :
    ∀ (bytes : List Nat) (idx : Nat) (processed : List Nat) (d : Driver),
      LoopInv n processed d →
      ∃ d', procBytes n readSize tell idx d bytes = some d' ∧
        LoopInv n (processed ++ bytes) d' := by
  intro bytes
  induction bytes with
  | nil =>
      intro idx processed d inv
      exact ⟨d, rfl, by simpa using inv⟩
  | cons c cs ih =>
      intro idx processed d inv
      obtain ⟨d1, hb, inv1⟩ :=
        @procByte_inv n readSize tell idx processed d hn inv c
      obtain ⟨d2, hbs, inv2⟩ := ih (idx + 1) (processed ++ [c]) d1 inv1
      refine ⟨d2, ?_, by simpa using inv2⟩
      simp [procBytes, hb, hbs]

theorem endChunk_inv {n : Nat} {processed : List Nat} {d : Driver}
    (inv : LoopInv n processed d) : LoopInv n processed (endChunk d) := by
  obtain ⟨recs, tl, hsplit, hrecs, hlen, htl⟩ := inv.hcur
  refine ⟨inv.hscan, inv.hgood, ?_, inv.hfiles, ?_, inv.hnum, inv.hfile⟩
  · rw [← inv.hjoin]
    simp [endChunk]
  · exact ⟨recs, tl, by simpa [endChunk] using hsplit, hrecs, hlen, htl⟩

theorem procChunks_inv {n readSize : Nat} (hn : 0 < n) :
    ∀ (chs : List (List Nat)) (processed : List Nat) (d : Driver),
      LoopInv n processed d →
      ∃ d', procChunks n readSize processed.length d chs = some d' ∧
        LoopInv n (processed ++ chs.flatten) d' := by
  intro chs
  induction chs with
  | nil =>
      intro processed d inv
      exact ⟨d, rfl, by simpa using inv⟩
  | cons ch chs ih =>
      intro processed d inv
      obtain ⟨d1, hb, inv1⟩ :=
        @procBytes_inv n readSize (processed.length + ch.length) hn ch 0
          processed d inv
      obtain ⟨d2, hbs, inv2⟩ := ih (processed ++ ch) (endChunk d1)
        (endChunk_inv inv1)
      refine ⟨d2, ?_, by simpa using inv2⟩
      simp only [procChunks, hb, Option.some_bind]
      rw [← hbs]
      simp [List.length_append]

theorem procChunks_outbuf {n readSize : Nat} :
    ∀ (chs : List (List Nat)) (tell : Nat) (d d' : Driver),
      procChunks n readSize tell d chs = some d' →
      d'.outbuf = [] ∨ d' = d := by
  intro chs
  induction chs with
  | nil =>
      intro tell d d' h
      right
      simp only [procChunks] at h
      exact (Option.some_inj.mp h).symm
  | cons ch chs ih =>
      intro tell d d' h
      simp only [procChunks] at h
      cases hb : procBytes n readSize (tell + ch.length) 0 d ch with
      | none => rw [hb] at h; exact absurd h (by simp)
      | some d1 =>
          rw [hb] at h
          simp only [Option.bind_eq_bind, Option.some_bind] at h
          rcases ih _ _ _ h with h1 | h1
          · exact Or.inl h1
          · exact Or.inl (by rw [h1]; rfl)

theorem initDriver_inv {n : Nat} : LoopInv n [] initDriver := by
  refine ⟨rfl, Or.inl rfl, rfl, ?_, ⟨[], [], rfl, ?_, ?_, rfl⟩, ?_, rfl⟩
  · intro f hf
    exact absurd hf (List.not_mem_nil f)
  · intro r hr
    exact absurd hr (List.not_mem_nil r)
  · simp [initDriver]
  · simp [initDriver]

theorem chunksOfAux_join {readSize : Nat} (hrs : 0 < readSize) :
    ∀ (fuel : Nat) (l : List Nat), l.length ≤ fuel →
      (chunksOfAux readSize fuel l).flatten = l := by
  intro fuel
  induction fuel with
  | zero =>
      intro l h
      have hl : l = [] := List.length_eq_zero.mp (Nat.le_zero.mp h)
      subst hl
      rfl
  | succ fuel ih =>
      intro l h
      cases l with
      | nil => rfl
      | cons c cs =>
          simp only [chunksOfAux, List.flatten_cons]
          rw [ih _ ?_]
          · exact List.take_append_drop _ _
          · simp only [List.length_drop, List.length_cons] at *
            omega

theorem chunksOf_join {readSize : Nat} (hrs : 0 < readSize) (l : List Nat) :
    (chunksOf readSize l).flatten = l :=
  chunksOfAux_join hrs l.length l le_rfl

theorem run_spec {n readSize : Nat} (hn : 0 < n) (hrs : 0 < readSize)
    (input : List Nat) :
    ∃ d, run n readSize input =
        some ⟨d.recordNum, d.fileNum,
          (if input = [] then [] else d.closed ++ [d.curFile]), d.index⟩ ∧
      LoopInv n input d ∧ d.outbuf = [] := by
  obtain ⟨d, hp, hinv⟩ :=
    @procChunks_inv n readSize hn (chunksOf readSize input) []
      initDriver initDriver_inv
  have hj : ([] : List Nat) ++ (chunksOf readSize input).flatten = input := by
    simp [chunksOf_join hrs]
  rw [hj] at hinv
  have hob : d.outbuf = [] := by
    rcases procChunks_outbuf _ _ _ _ hp with h | h
    · exact h
    · rw [h]; rfl
  refine ⟨d, ?_, hinv, hob⟩
  simp only [List.length_nil] at hp
  simp only [run, hp, Option.some_bind]
  simp [hob]

theorem run_eq {n readSize : Nat} {input : List Nat} {r : RunResult}
    (hn : 0 < n) (hrs : 0 < readSize) (h : run n readSize input = some r) :
    ∃ d, LoopInv n input d ∧ d.outbuf = [] ∧
      r = ⟨d.recordNum, d.fileNum,
        (if input = [] then [] else d.closed ++ [d.curFile]), d.index⟩ := by
  obtain ⟨d, hrun, hinv, hob⟩ := run_spec hn hrs input
  rw [hrun] at h
  exact ⟨d, hinv, hob, (Option.some_inj.mp h).symm⟩

/-- C1: for every input byte stream, concatenating the output split
files in sequence order reproduces the input exactly: the split adds,
removes and transforms no bytes. -/
theorem splitFiles_reconstruct (n readSize : Nat) (input : List Nat)
    (hn : 0 < n) (hrs : 0 < readSize) :
    ∃ r, run n readSize input = some r ∧ r.files.flatten = input := by
  obtain ⟨d, hrun, hinv, hob⟩ := run_spec hn hrs input
  refine ⟨_, hrun, ?_⟩
  by_cases hin : input = []
  · simp [hin]
  · have hj := hinv.hjoin
    rw [hob, List.append_nil] at hj
    simpa [hin] using hj

theorem splitFiles_reconstruct_witness :
    ∃ r, run 2 4 [97, 10, 98, 10] = some r ∧
      r.files.flatten = [97, 10, 98, 10] :=
  splitFiles_reconstruct 2 4 [97, 10, 98, 10] (by decide) (by decide)

/-- C2 (code evaluation): on the one-byte input `"a"` — non-empty, not
ending in a line feed — the script reports 0 records, not 1: the
leftover check `if outbuf and outbuf[-1] != 10` is dead because
`outbuf` is flushed and cleared at the end of every chunk iteration,
so the trailing unterminated record is never counted. -/
theorem unterminated_tail_not_counted :
    run 2 1048576 [97] = some ⟨0, 1, [[97]], []⟩ := by decide

/-- C3 (code evaluation): on the 10-byte 5-record input
`a\nb\nc\nd\ne\n` with `num_per_split = 2` and the script's 1 MiB read
size, the final (only) chunk is shorter than `read_size`, and the index
offsets `infh.tell()-read_size+index+1` come out negative
(-1048562 and -1048558) instead of the true offsets 4 and 8. -/
theorem index_offset_short_chunk :
    run 2 1048576 [97, 10, 98, 10, 99, 10, 100, 10, 101, 10] =
      some ⟨5, 3, [[97, 10, 98, 10], [99, 10, 100, 10], [101, 10]],
        [(2, -1048562), (4, -1048558)]⟩ := by decide

/-- C5: the byte sequence `"a""b"` followed by a line feed is a single
record — the escaped pair `""` does not close the quoted field — and
the scanner is back in `Start` after the terminating line feed. -/
theorem quoted_escape_single_record :
    scanRecords [SState.start] [34, 97, 34, 34, 98, 34, 10] =
      some ([SState.start], 1) := by decide

/-- C4: a line feed increments the record counter exactly when the
scanner's resolved state (after discharging a pending `endquote`) is
`Start`; consequently the scanner is back at `Start` at every split
boundary, and every closed split file (all files but possibly the
last) scans from `Start` back to `Start`, i.e. has balanced quoting. -/
theorem record_end_iff_start :
    (∀ st : Stack, goodStack st →
      ∃ st' b, scanStep st lfByte = some (st', b) ∧
        (b = true ↔ resolveStep st = [SState.start]) ∧
        (b = true → st' = [SState.start])) ∧
    (∀ (n readSize : Nat) (input : List Nat) (r : RunResult), 0 < n →
      0 < readSize → run n readSize input = some r →
      ∀ f ∈ r.files.dropLast,
        scanStates [SState.start] f = some [SState.start]) := by
  constructor
  · intro st hg
    refine ⟨resolveStep st, decide (resolveStep st = [SState.start]),
      scanStep_lf hg, by simp, by simp⟩
  · intro n readSize input r hn hrs hr f hf
    obtain ⟨d, hinv, hob, hreq⟩ := run_eq hn hrs hr
    subst hreq
    by_cases hin : input = []
    · simp [hin] at hf
    · simp only [hin, if_neg, ite_false, List.dropLast_concat] at hf
      obtain ⟨recs, hfeq, hrecs, hlenr⟩ := hinv.hfiles f hf
      rw [hfeq]
      simp [scanStates, scanRecords_join hrecs]

theorem record_end_iff_start_witness :
    ∃ st' b, scanStep [SState.start] lfByte = some (st', b) ∧
      (b = true ↔ resolveStep [SState.start] = [SState.start]) ∧
      (b = true → st' = [SState.start]) :=
  record_end_iff_start.1 [SState.start] (Or.inl rfl)

/-- C9: processing any input from the initial stack never reads or
pops an empty stack (the scan never faults), the bottom of the stack
is always `start`, `endquote` only ever sits directly above `inquote`,
and the stack depth never exceeds 3. -/
theorem scanner_stack_safety (input : List Nat) :
    ∃ st, scanStates [SState.start] input = some st ∧
      (st = [SState.start] ∨ st = [SState.inquote, SState.start] ∨
        st = [SState.endquote, SState.inquote, SState.start]) ∧
      st ≠ [] ∧ st.getLast? = some SState.start ∧ st.length ≤ 3 ∧
      (∀ i, st.get? i = some SState.endquote →
        st.get? (i + 1) = some SState.inquote) := by
  obtain ⟨st, k, h, hg⟩ := scanRecords_good (Or.inl rfl) input
  refine ⟨st, by simp [scanStates, h], hg, ?_⟩
  rcases hg with hg | hg | hg <;> subst hg <;>
    refine ⟨by simp, by simp, by simp, ?_⟩ <;>
    · intro i hi
      rcases i with _ | _ | _ | i <;> simp_all

theorem flatten_getLast {recs : List (List Nat)}
    (hrecs : ∀ r ∈ recs, IsRecord r) (hne : recs.flatten ≠ []) :
    recs.flatten.getLast? = some lfByte := by
  induction recs with
  | nil => exact absurd rfl hne
  | cons r rs ih =>
      rw [List.flatten_cons]
      by_cases hrs : rs.flatten = []
      · rw [hrs, List.append_nil]
        exact (hrecs r (by simp)).2.1
      · rw [List.getLast?_append_of_ne_nil _ hrs]
        exact ih (fun q hq => hrecs q (by simp [hq])) hrs

theorem wholeRecords_getLast {f : List Nat} (h : WholeRecords f)
    (hne : f ≠ []) : f.getLast? = some lfByte := by
  obtain ⟨recs, rfl, hrecs⟩ := h
  exact flatten_getLast hrecs hne

/-- C6 counterexample: on input `"a"` (one byte, no terminator) the
single output file is `[97]`, which is not a whole number of complete
records: its last byte is not a record-terminating line feed. -/
theorem last_file_partial_record :
    run 2 1048576 [97] = some ⟨0, 1, [[97]], []⟩ ∧ ¬ WholeRecords [97] := by
  refine ⟨by decide, fun h => ?_⟩
  have hl := wholeRecords_getLast h (by decide)
  simp [lfByte] at hl

/-- C6 (amended): every split file closed at a rotation is a
concatenation of exactly `num_per_split` complete records (so only the
last, still-open file can hold fewer), and the last file holds
`record_num % num_per_split < num_per_split` record terminators,
possibly followed by a trailing unterminated record. -/
theorem split_file_record_counts {n readSize : Nat} {input : List Nat}
    {r : RunResult} (hn : 0 < n) (hrs : 0 < readSize)
    (hr : run n readSize input = some r) (hne : input ≠ []) :
    (∀ f ∈ r.files.dropLast, WholeRecords f ∧ numRecords f = some n) ∧
    ∃ lastF, r.files.getLast? = some lastF ∧
      numRecords lastF = some (r.recordNum % n) ∧ r.recordNum % n < n := by
  obtain ⟨d, hinv, hob, hreq⟩ := run_eq hn hrs hr
  subst hreq
  obtain ⟨recs, tl, hsplit, hrecs, hlen, htl⟩ := hinv.hcur
  rw [hob, List.append_nil] at hsplit
  constructor
  · intro f hf
    simp only [hne, ite_false, if_neg, List.dropLast_concat] at hf
    obtain ⟨rs, hfeq, hrs2, hlenr⟩ := hinv.hfiles f hf
    refine ⟨⟨rs, hfeq, hrs2⟩, ?_⟩
    rw [hfeq]
    simp [numRecords, scanRecords_join hrs2, hlenr]
  · refine ⟨d.curFile, ?_, ?_, Nat.mod_lt _ hn⟩
    · simp [hne, List.getLast?_concat]
    · rw [hsplit]
      simp [numRecords, scanRecords_append, scanRecords_join hrecs, htl,
        hlen]

theorem split_file_record_counts_witness :
    (∀ f ∈ (⟨3, 2, [[97, 10, 98, 10], [99, 10]],
        [(2, 4)]⟩ : RunResult).files.dropLast,
      WholeRecords f ∧ numRecords f = some 2) ∧
    ∃ lastF, (⟨3, 2, [[97, 10, 98, 10], [99, 10]],
        [(2, 4)]⟩ : RunResult).files.getLast? = some lastF ∧
      numRecords lastF = some (3 % 2) ∧ 3 % 2 < 2 :=
  @split_file_record_counts 2 4 [97, 10, 98, 10, 99, 10]
    ⟨3, 2, [[97, 10, 98, 10], [99, 10]], [(2, 4)]⟩
    (by decide) (by decide) (by decide) (by decide)

/-- C10: when the input's record count is a positive multiple of
`num_per_split` and its last byte is the line feed terminating the
final record, the rotation at that byte opens one further output file
that then receives zero bytes: the last file is empty, and it is
counted in the reported file total (`records/num_per_split + 1`
files). -/
theorem trailing_empty_file {n readSize : Nat} {input : List Nat}
    {r : RunResult} (hn : 0 < n) (hrs : 0 < readSize)
    (hr : run n readSize input = some r) (hne : input ≠ [])
    (hlast : input.getLast? = some lfByte)
    (hst : scanStates [SState.start] input = some [SState.start])
    (hmul : r.recordNum % n = 0) (hpos : 0 < r.recordNum) :
    r.files.getLast? = some [] ∧ r.files.length = r.outputFilenum ∧
      r.outputFilenum = r.recordNum / n + 1 := by
  obtain ⟨d, hinv, hob, hreq⟩ := run_eq hn hrs hr
  subst hreq
  have hmul' : d.recordNum % n = 0 := hmul
  have hdst : d.st = [SState.start] := by
    rw [scanStates, hinv.hscan] at hst
    simpa using hst
  obtain ⟨recs, tl, hsplit, hrecs, hlen, htl⟩ := hinv.hcur
  rw [hob, List.append_nil] at hsplit
  have hrecs0 : recs = [] :=
    List.length_eq_zero.mp (by rw [hlen]; exact hmul')
  subst hrecs0
  simp only [List.flatten_nil, List.nil_append] at hsplit
  subst hsplit
  have hcf : d.curFile = [] := by
    by_contra hne2
    have hj := hinv.hjoin
    rw [hob, List.append_nil] at hj
    rw [← hj, List.getLast?_append_of_ne_nil _ hne2] at hlast
    obtain ⟨l', hl'⟩ := List.getLast?_eq_some_iff.mp hlast
    rw [hl'] at htl
    rw [scanRecords_append] at htl
    obtain ⟨st1, k1, hst1, hg1⟩ := scanRecords_good (Or.inl rfl) l'
    rw [hst1] at htl
    simp only [Option.some_bind] at htl
    cases h2 : scanRecords st1 [lfByte] with
    | none => rw [h2] at htl; exact absurd htl (by simp)
    | some q =>
        rw [h2] at htl
        obtain ⟨q1, q2⟩ := q
        simp only [Option.map_some', Option.some_inj, Prod.mk.injEq] at htl
        obtain ⟨hq1, hq2⟩ := htl
        rw [hdst] at hq1
        have := scanRecords_lf_start hg1 h2 hq1
        omega
  refine ⟨?_, ?_, ?_⟩
  · simp [hne, hcf, List.getLast?_concat]
  · simp [hne, hinv.hfile]
  · have hnum := hinv.hnum
    rw [hmul', Nat.add_zero] at hnum
    have : d.recordNum / n = d.closed.length := by
      rw [hnum]
      exact Nat.mul_div_cancel_left _ hn
    simp only [this, hinv.hfile]

theorem trailing_empty_file_witness :
    (⟨2, 2, [[97, 10, 98, 10], []],
        [(2, 4)]⟩ : RunResult).files.getLast? = some [] ∧
    (⟨2, 2, [[97, 10, 98, 10], []],
        [(2, 4)]⟩ : RunResult).files.length =
      (⟨2, 2, [[97, 10, 98, 10], []], [(2, 4)]⟩ : RunResult).outputFilenum ∧
    (⟨2, 2, [[97, 10, 98, 10], []], [(2, 4)]⟩ : RunResult).outputFilenum =
      (⟨2, 2, [[97, 10, 98, 10], []],
        [(2, 4)]⟩ : RunResult).recordNum / 2 + 1 :=
  @trailing_empty_file 2 4 [97, 10, 98, 10]
    ⟨2, 2, [[97, 10, 98, 10], []], [(2, 4)]⟩
    (by decide) (by decide) (by decide) (by decide) (by decide) (by decide)
    (by decide) (by decide)

theorem decDigitsAux_eq :
    ∀ fuel n : Nat, n ≤ fuel → decDigitsAux fuel n = Nat.digits 10 n := by
  intro fuel
  induction fuel with
  | zero =>
      intro n h
      rw [Nat.le_zero.mp h]
      simp [decDigitsAux]
  | succ fuel ih =>
      intro n h
      cases n with
      | zero => simp [decDigitsAux]
      | succ m =>
          rw [decDigitsAux, ih _ ?_, ← Nat.digits_def' (by norm_num) (Nat.succ_pos m)]
          have := Nat.div_lt_self (Nat.succ_pos m) (show 1 < 10 by norm_num)
          omega

theorem decRepr_eq_digits {n : Nat} (h : n ≠ 0) :
    decRepr n = ((Nat.digits 10 n).map digitChar).reverse := by
  rw [decRepr, if_neg h, decDigitsAux_eq n n le_rfl]

theorem splitext_append (p : PathC) :
    (splitext p).1 ++ (splitext p).2 = p := by
  unfold splitext
  cases rlast '.' p with
  | none => simp
  | some di =>
      simp only
      split_ifs <;> simp [List.take_append_drop]

theorem digitChar_inj :
    ∀ d1, d1 < 10 → ∀ d2, d2 < 10 → digitChar d1 = digitChar d2 →
      d1 = d2 := by decide

theorem map_digitChar_inj :
    ∀ l1 l2 : List Nat, (∀ d ∈ l1, d < 10) → (∀ d ∈ l2, d < 10) →
      l1.map digitChar = l2.map digitChar → l1 = l2 := by
  intro l1
  induction l1 with
  | nil =>
      intro l2 _ _ h
      cases l2 with
      | nil => rfl
      | cons e es => simp at h
  | cons d ds ih =>
      intro l2 h1 h2 h
      cases l2 with
      | nil => simp at h
      | cons e es =>
          simp only [List.map_cons, List.cons.injEq] at h
          have hd := digitChar_inj d (h1 d (by simp)) e (h2 e (by simp)) h.1
          rw [hd, ih es (fun x hx => h1 x (by simp [hx]))
            (fun x hx => h2 x (by simp [hx])) h.2]

theorem decRepr_ne_nil (n : Nat) : decRepr n ≠ [] := by
  by_cases h : n = 0
  · subst h
    simp [decRepr]
  · rw [decRepr_eq_digits h]
    simp [Nat.digits_ne_nil_iff_ne_zero.mpr h]

theorem decRepr_zero_ne {b : Nat} (hb : b ≠ 0) : decRepr 0 ≠ decRepr b := by
  intro h
  rw [show decRepr 0 = ['0'] from rfl, decRepr_eq_digits hb] at h
  have h2 := congrArg List.reverse h
  simp only [List.reverse_reverse] at h2
  cases hd : Nat.digits 10 b with
  | nil => rw [hd] at h2; simp at h2
  | cons d ds =>
      rw [hd] at h2
      simp only [List.map_cons, List.reverse_singleton] at h2
      have h3 : digitChar d = '0' ∧ ds.map digitChar = [] := by
        have := List.cons.injEq (digitChar d) (ds.map digitChar) '0' []
        rw [← this]
        exact h2.symm
      have hds : ds = [] := List.map_eq_nil_iff.mp h3.2
      have hdm : d ∈ Nat.digits 10 b := by rw [hd]; simp
      have hdlt : d < 10 := Nat.digits_lt_base (by norm_num) hdm
      have hd0 : d = 0 :=
        digitChar_inj d hdlt 0 (by norm_num) (by rw [h3.1]; rfl)
      have hg := Nat.getLast_digit_ne_zero 10 hb
      have hq2 : some d = some ((Nat.digits 10 b).getLast
          (Nat.digits_ne_nil_iff_ne_zero.mpr hb)) := by
        rw [← List.getLast?_eq_getLast _ (Nat.digits_ne_nil_iff_ne_zero.mpr hb),
          hd, hds]
        rfl
      exact hg (by rw [← Option.some_inj.mp hq2, hd0])

theorem decRepr_inj : Function.Injective decRepr := by
  intro a b h
  by_cases ha : a = 0 <;> by_cases hb : b = 0
  · rw [ha, hb]
  · exact absurd (ha ▸ h) (decRepr_zero_ne hb)
  · exact absurd (hb ▸ h.symm) (decRepr_zero_ne ha)
  · rw [decRepr_eq_digits ha, decRepr_eq_digits hb] at h
    have h2 := List.reverse_injective h
    have h3 := map_digitChar_inj _ _
      (fun d hd => Nat.digits_lt_base (by norm_num) hd)
      (fun d hd => Nat.digits_lt_base (by norm_num) hd) h2
    have h4 := congrArg (Nat.ofDigits 10) h3
    rw [Nat.ofDigits_digits, Nat.ofDigits_digits] at h4
    exact_mod_cast h4

theorem candidatePath_length_lt (initial : PathC) (k : Nat) :
    (candidatePath initial 0).length < (candidatePath initial (k + 1)).length := by
  have hsp := congrArg List.length (splitext_append initial)
  have hnn : 0 < (decRepr (k + 1)).length :=
    List.length_pos.mpr (decRepr_ne_nil _)
  simp only [candidatePath, List.length_append, List.length_cons] at *
  omega

theorem candidatePath_inj (initial : PathC) :
    Function.Injective (candidatePath initial) := by
  intro j k h
  cases j with
  | zero =>
      cases k with
      | zero => rfl
      | succ k =>
          have := candidatePath_length_lt initial k
          rw [h] at this
          exact absurd this (lt_irrefl _)
  | succ j =>
      cases k with
      | zero =>
          have := candidatePath_length_lt initial j
          rw [h] at this
          exact absurd this (lt_irrefl _)
      | succ k =>
          simp only [candidatePath] at h
          have h1 := List.append_cancel_left h
          injection h1 with _ h2
          have h3 := List.append_cancel_right h2
          have h4 := decRepr_inj h3
          omega

theorem nextOutfileLoop_none {fs : List PathC} {initial : PathC} :
    ∀ (fuel r : Nat), nextOutfileLoop fs initial fuel r = none →
      ∀ j, r ≤ j → j < r + fuel → candidatePath initial j ∈ fs := by
  intro fuel
  induction fuel with
  | zero => intro r _ j h1 h2; omega
  | succ fuel ih =>
      intro r h j h1 h2
      rw [nextOutfileLoop] at h
      by_cases hm : candidatePath initial r ∈ fs
      · rw [if_pos hm] at h
        rcases Nat.eq_or_lt_of_le h1 with he | hlt
        · rwa [← he]
        · exact ih (r + 1) h j hlt (by omega)
      · rw [if_neg hm] at h
        exact absurd h (by simp)

theorem nextOutfileLoop_some {fs : List PathC} {initial : PathC} :
    ∀ (fuel r : Nat) (p : PathC), nextOutfileLoop fs initial fuel r = some p →
      p ∉ fs ∧ ∃ k, r ≤ k ∧ p = candidatePath initial k ∧
        ∀ j, r ≤ j → j < k → candidatePath initial j ∈ fs := by
  intro fuel
  induction fuel with
  | zero => intro r p h; exact absurd h (by simp [nextOutfileLoop])
  | succ fuel ih =>
      intro r p h
      rw [nextOutfileLoop] at h
      by_cases hm : candidatePath initial r ∈ fs
      · rw [if_pos hm] at h
        obtain ⟨hp, k, hk, hpk, hall⟩ := ih (r + 1) p h
        refine ⟨hp, k, by omega, hpk, ?_⟩
        intro j h1 h2
        rcases Nat.eq_or_lt_of_le h1 with he | hlt
        · rwa [← he]
        · exact hall j hlt h2
      · rw [if_neg hm] at h
        refine ⟨?_, r, le_rfl, (Option.some_inj.mp h).symm, ?_⟩
        · rw [← Option.some_inj.mp h]
          exact hm
        · intro j h1 h2
          omega

theorem next_outfile_total (fs : List PathC) (inputPath : PathC)
    (outputDir : Option PathC) (counter : Nat) :
    ∃ p, next_outfile fs inputPath outputDir counter = some p := by
  rw [next_outfile]
  cases h : nextOutfileLoop fs
      (initialOutputPath inputPath outputDir counter) (fs.length + 1) 0 with
  | some p => exact ⟨p, rfl⟩
  | none =>
      exfalso
      have hall := nextOutfileLoop_none _ _ h
      have hsub : (List.range (fs.length + 1)).map
          (candidatePath (initialOutputPath inputPath outputDir counter)) ⊆ fs := by
        intro x hx
        obtain ⟨j, hj, rfl⟩ := List.mem_map.mp hx
        exact hall j (Nat.zero_le j) (by simpa using List.mem_range.mp hj)
      have hnd : ((List.range (fs.length + 1)).map
          (candidatePath (initialOutputPath inputPath outputDir counter))).Nodup :=
        (List.nodup_range _).map (candidatePath_inj _)
      have hle := (List.subperm_of_subset hnd hsub).length_le
      simp at hle

/-- C7: for every filesystem state, base path, output directory and
sequence counter, `next_outfile` terminates with a path that did not
exist before (the exclusive create never opens, truncates or
overwrites an existing file), and that path is the first collision-free
candidate: the `_{seq:06}` name, or on collision the variant with the
smallest disambiguator `_1`, `_2`, … inserted before the extension,
every earlier candidate having existed already. -/
theorem next_outfile_spec (fs : List PathC) (inputPath : PathC)
    (outputDir : Option PathC) (counter : Nat) :
    ∃ p, next_outfile fs inputPath outputDir counter = some p ∧
      p ∉ fs ∧
      ∃ k, p = candidatePath (initialOutputPath inputPath outputDir counter) k ∧
        ∀ j < k,
          candidatePath (initialOutputPath inputPath outputDir counter) j ∈ fs := by
  obtain ⟨p, hp⟩ := next_outfile_total fs inputPath outputDir counter
  rw [next_outfile] at hp
  obtain ⟨hnotin, k, -, hpk, hall⟩ := nextOutfileLoop_some _ _ _ hp
  refine ⟨p, by rw [next_outfile]; exact hp, hnotin, k, hpk, ?_⟩
  intro j hj
  exact hall j (Nat.zero_le j) hj

theorem next_outfile_spec_witness :
    ∃ p, next_outfile [] [] none 1 = some p ∧ p ∉ ([] : List PathC) ∧
      ∃ k, p = candidatePath (initialOutputPath [] none 1) k ∧
        ∀ j < k, candidatePath (initialOutputPath [] none 1) j ∈
          ([] : List PathC) :=
  next_outfile_spec [] [] none 1

/-- C8: on a non-empty input, when the index destination already
exists, the exclusive open fails and the program aborts with the
filesystem unchanged: no output split file has been created, no byte
written, and the pre-existing index file is untouched. -/
theorem index_collision_aborts (fs : List PathC) (inputPath : PathC)
    (outputDir : Option PathC) (ip : PathC) (n readSize : Nat)
    (input : List Nat) (hne : input ≠ []) (hex : ip ∈ fs) :
    runScript fs inputPath outputDir (some ip) n readSize input =
      .error fs := by
  simp [runScript, hne, hex]

theorem index_collision_aborts_witness :
    runScript [['i']] ['a'] none (some ['i']) 2 4 [97] = .error [['i']] :=
  index_collision_aborts [['i']] ['a'] none ['i'] 2 4 [97]
    (by decide) (by decide)

theorem scanner_stack_safety_witness :
    ∃ st, scanStates [SState.start] [34, 97, 10] = some st ∧
      (st = [SState.start] ∨ st = [SState.inquote, SState.start] ∨
        st = [SState.endquote, SState.inquote, SState.start]) ∧
      st ≠ [] ∧ st.getLast? = some SState.start ∧ st.length ≤ 3 ∧
      (∀ i, st.get? i = some SState.endquote →
        st.get? (i + 1) = some SState.inquote) :=
  scanner_stack_safety [34, 97, 10]
